import Mathlib

/-!
Verification of the restriction-classification core of
`cql3/restrictions/statement_restrictions.hh` (ScyllaDB).

The development shallowly embeds the data model of the header (columns,
predicate atoms, restriction buckets, secondary indexes, tokens) and the
operations the specification talks about. Functions whose bodies appear in
the header (`ck_restrictions_need_filtering`, `is_restricted`,
`get_restrictions`, and the token-range bounds computation kept in the
header as a reference implementation) are translated from that source;
functions whose bodies are not part of the provided source are modelled
from the specification and marked as such in their doc comments.
-/

namespace Scylla

/-- Column kinds, mirroring `column_kind` as used by `get_restrictions`. -/
inductive ColumnKind where
  | partition_key
  | clustering_key
  | regular_column
  | static_column
deriving DecidableEq, Repr

/-- A column definition: an identifier plus its kind (mirrors `column_definition`,
reduced to what the classified restrictions consult). -/
structure ColumnDef where
  name : Nat
  kind : ColumnKind
deriving DecidableEq, Repr

/-- Schema: ordered partition-key columns and ordered clustering-key columns. -/
structure Schema where
  partitionColumns : List ColumnDef
  clusteringColumns : List ColumnDef
deriving DecidableEq, Repr

/-- A value: either null or a concrete (integer-coded) value. -/
inductive Value where
  | null
  | intval (v : Int)
deriving DecidableEq, Repr

/-- A term on the right-hand side of an atom: a literal or a bound marker
resolved from the query options at range-computation time. -/
inductive Term where
  | lit (v : Value)
  | marker (i : Nat)
deriving DecidableEq, Repr

/-- The right-hand side of an atom: a single term, a tuple of terms, or a
list of terms (for IN). -/
inductive RHS where
  | term (t : Term)
  | tup (ts : List Term)
  | listOf (ts : List Term)
deriving DecidableEq, Repr

/-- Operators of the predicate model (`expr::oper_t`). -/
inductive Oper where
  | eq
  | inOp
  | lt
  | lte
  | gt
  | gte
  | containsOp
  | containsKey
  | likeOp
  | isNotOp
  | neq
deriving DecidableEq, Repr

/-- The left-hand side of an atom: a single column, a tuple of columns, or
`token(...)` over partition columns. -/
inductive LHS where
  | single (c : ColumnDef)
  | tuple (cs : List ColumnDef)
  | tokenOf (cs : List ColumnDef)
deriving DecidableEq, Repr

/-- One predicate atom (`expr::binary_operator`). -/
structure BinOp where
  lhs : LHS
  op : Oper
  rhs : RHS
deriving DecidableEq, Repr

/-- An expression restricted to the shape used by the classified buckets:
a conjunction of atoms. -/
abbrev Expression := List BinOp

/-- `expr::is_empty_restriction`: the conjunction has no atoms. -/
def is_empty_restriction (e : Expression) : Bool :=
  e.isEmpty

/-- `expr::has_token`: some atom's left-hand side is a token call. -/
def has_token (e : Expression) : Bool :=
  e.any (fun a => match a.lhs with | .tokenOf _ => true | _ => false)

/-- `expr::find(e, op)`: some atom uses the given operator. -/
def findOper (e : Expression) (o : Oper) : Bool :=
  e.any (fun a => a.op == o)

/-- Columns referenced by the left-hand side of one atom. -/
def lhsColumns : LHS → List ColumnDef
  | .single c => [c]
  | .tuple cs => cs
  | .tokenOf cs => cs

/-- `expr::get_sorted_column_defs`: the distinct column definitions
referenced by the expression. -/
def get_sorted_column_defs (e : Expression) : List ColumnDef :=
  (e.flatMap (fun a => lhsColumns a.lhs)).dedup

/-- The atoms whose left-hand side is exactly the given single column. -/
def atomsOnColumn (e : Expression) (c : ColumnDef) : List BinOp :=
  e.filter (fun a => a.lhs == LHS.single c)

/-- True for the equality and set-membership operators. -/
def isEqOrIn (o : Oper) : Bool :=
  match o with
  | .eq => true
  | .inOp => true
  | _ => false

/-- True for bounded-range (slice/ordering) operators. -/
def isSliceOp (o : Oper) : Bool :=
  match o with
  | .lt => true
  | .lte => true
  | .gt => true
  | .gte => true
  | _ => false

/-- True for lower-bound ordering operators. -/
def isLowerSlice (o : Oper) : Bool :=
  match o with
  | .gt => true
  | .gte => true
  | _ => false

/-- True for upper-bound ordering operators. -/
def isUpperSlice (o : Oper) : Bool :=
  match o with
  | .lt => true
  | .lte => true
  | _ => false

/-- A ring token: the distinguished minimum token, or a concrete token value. -/
inductive Token where
  | minimum
  | tok (v : Int)
deriving DecidableEq, Repr

/-- `Token.isMinimum` from the source's token model. -/
def Token.isMinimum : Token → Bool
  | .minimum => true
  | .tok _ => false

/-- `startToken.compareTo(endToken)`: the minimum token sorts below every
concrete token; concrete tokens compare by value. -/
def Token.cmp : Token → Token → Ordering
  | .minimum, .minimum => .eq
  | .minimum, .tok _ => .lt
  | .tok _, .minimum => .gt
  | .tok a, .tok b => compare a b

/-- A row-position bound derived from a token (`minKeyBound`/`maxKeyBound`). -/
inductive KeyBound where
  | minKeyBound (t : Token)
  | maxKeyBound (t : Token)
deriving DecidableEq, Repr

/-- A partition range between two row-position bounds. -/
structure RowRange where
  startBound : KeyBound
  endBound : KeyBound
deriving DecidableEq, Repr

/-- The emptiness test of `get_partition_key_bounds_for_token_restriction`
(statement_restrictions.hh): both tokens non-minimal and the compare result
greater, or equal with an exclusive bound. -/
def token_interval_empty
    (includeStart includeEnd : Bool) (startToken endToken : Token) : Bool :=
  let c := startToken.cmp endToken
  !startToken.isMinimum && !endToken.isMinimum
    && (c == Ordering.gt || (c == Ordering.eq && (!includeStart || !includeEnd)))

/-- Translation of `get_partition_key_bounds_for_token_restriction`
(statement_restrictions.hh, the reference implementation kept in the
header): given the inclusivity of each bound and the two resolved token
bounds, return the range, or `none` when the interval is deliberately
treated as empty. -/
def get_partition_key_bounds_for_token_restriction
    (includeStart includeEnd : Bool) (startToken endToken : Token) : Option RowRange :=
  if token_interval_empty includeStart includeEnd startToken endToken then
    none
  else
    some { startBound := if includeStart then .minKeyBound startToken else .maxKeyBound startToken
           endBound := if includeEnd then .maxKeyBound endToken else .minKeyBound endToken }

/-- `getTokenBound` (statement_restrictions.hh): an absent bound resolves to
the minimum token; a null bound value is an invalid request; otherwise the
token is built from the value. -/
def getTokenBound (hasBound : Bool) (value : Value) : Except Unit Token :=
  if !hasBound then .ok .minimum
  else match value with
    | .null => .error ()
    | .intval v => .ok (.tok v)

/-- Modelled from the spec: the token-restricted path of
`get_partition_key_ranges` (whose body is not part of the provided source)
returns the vector of partition ranges produced by the token-bounds
computation: empty exactly when that computation declares the interval empty. -/
def get_partition_key_ranges_token
    (includeStart includeEnd : Bool) (startToken endToken : Token) : List RowRange :=
  match get_partition_key_bounds_for_token_restriction includeStart includeEnd startToken endToken with
  | none => []
  | some r => [r]

/-- The classified state of a `statement_restrictions` instance: the fields
of the class that its query methods consult. The delegate call
`_clustering_columns_restrictions->needs_filtering(*_schema)` (a method of
an external collaborator class) is recorded as the boolean field
`clustering_columns_needs_filtering`. -/
structure StatementRestrictions where
  /-- `_schema` -/
  schema : Schema
  /-- `_partition_key_restrictions` -/
  partition_key_restrictions : Expression
  /-- `_new_clustering_columns_restrictions` -/
  new_clustering_columns_restrictions : Expression
  /-- Result of `_clustering_columns_restrictions->needs_filtering(*_schema)`:
  whether the clustering restrictions fail the clean prefix-plus-trailing-range shape. -/
  clustering_columns_needs_filtering : Bool
  /-- `_new_nonprimary_key_restrictions` -/
  new_nonprimary_key_restrictions : Expression
  /-- `_not_null_columns` -/
  not_null_columns : List ColumnDef
  /-- `_uses_secondary_indexing` -/
  uses_secondary_indexing : Bool
  /-- `_is_key_range` -/
  is_key_range : Bool
deriving DecidableEq, Repr

/-- Modelled from the spec: `has_partition_key_unrestricted_components`
(body not part of the provided source; the spec lists it among the pure
lookups over the finished buckets): some partition-key column of the schema
is not referenced by the partition-key restriction bucket. -/
def has_partition_key_unrestricted_components (s : StatementRestrictions) : Bool :=
  s.schema.partitionColumns.any
    (fun c => !((get_sorted_column_defs s.partition_key_restrictions).contains c))

/-- Translation of `get_restrictions(column_kind)` from the header: the
restriction bucket for the given column kind (the `default` branch of the
switch returns the non-primary-key bucket). -/
def get_restrictions (s : StatementRestrictions) (kind : ColumnKind) : Expression :=
  match kind with
  | .partition_key => s.partition_key_restrictions
  | .clustering_key => s.new_clustering_columns_restrictions
  | _ => s.new_nonprimary_key_restrictions

/-- Translation of `is_restricted` from the header: true when the column is
in `_not_null_columns`, or appears among the sorted column definitions of
the restriction bucket for the column's kind. -/
def is_restricted (s : StatementRestrictions) (cdef : ColumnDef) : Bool :=
  if s.not_null_columns.contains cdef then true
  else (get_sorted_column_defs (get_restrictions s cdef.kind)).contains cdef

/-- Translation of `ck_restrictions_need_filtering` from the header: false
when the clustering bucket is empty; otherwise true when the partition key
has unrestricted components, or the clustering restrictions need filtering,
or secondary indexing is combined with a token restriction. -/
def ck_restrictions_need_filtering (s : StatementRestrictions) : Bool :=
  if is_empty_restriction s.new_clustering_columns_restrictions then
    false
  else
    has_partition_key_unrestricted_components s
    || s.clustering_columns_needs_filtering
    || (s.uses_secondary_indexing && has_token s.partition_key_restrictions)

/-- Partition-key column used by the concrete example states. -/
def colA : ColumnDef := { name := 0, kind := .partition_key }

/-- First clustering-key column used by the concrete example states. -/
def colB : ColumnDef := { name := 1, kind := .clustering_key }

/-- Second clustering-key column used by the concrete example states. -/
def colC : ColumnDef := { name := 2, kind := .clustering_key }

/-- Regular column used by the concrete example states. -/
def colD : ColumnDef := { name := 3, kind := .regular_column }

/-- Example schema: partition key `(a)`, clustering key `(b, c)`. -/
def exSchema : Schema := { partitionColumns := [colA], clusteringColumns := [colB, colC] }

/-- A token restriction atom `token(a) > 0`. -/
def tokenAtom : BinOp := { lhs := .tokenOf [colA], op := .gt, rhs := .term (.lit (.intval 0)) }

/-- An equality atom `a = 1`. -/
def eqAtomA : BinOp := { lhs := .single colA, op := .eq, rhs := .term (.lit (.intval 1)) }

/-- An equality atom `b = 2`. -/
def eqAtomB : BinOp := { lhs := .single colB, op := .eq, rhs := .term (.lit (.intval 2)) }

/-- A bounded-range atom `b > 1`. -/
def sliceAtomB : BinOp := { lhs := .single colB, op := .gt, rhs := .term (.lit (.intval 1)) }

/-- An equality atom `c = 5`. -/
def eqAtomC : BinOp := { lhs := .single colC, op := .eq, rhs := .term (.lit (.intval 5)) }

/-- State with an empty clustering bucket but a fully unrestricted partition
key: exercises the empty-bucket early return of `ck_restrictions_need_filtering`. -/
def stEmptyCk : StatementRestrictions :=
  { schema := exSchema
    partition_key_restrictions := []
    new_clustering_columns_restrictions := []
    clustering_columns_needs_filtering := false
    new_nonprimary_key_restrictions := []
    not_null_columns := []
    uses_secondary_indexing := false
    is_key_range := true }

/-- State with an empty clustering bucket, secondary indexing in use and a
token restriction on the partition key, and the delegate needs-filtering
flag set: every non-empty-bucket disjunct of `ck_restrictions_need_filtering`
holds, yet the bucket is empty. -/
def stEmptyCkIdx : StatementRestrictions :=
  { schema := exSchema
    partition_key_restrictions := [tokenAtom]
    new_clustering_columns_restrictions := []
    clustering_columns_needs_filtering := true
    new_nonprimary_key_restrictions := []
    not_null_columns := []
    uses_secondary_indexing := true
    is_key_range := true }

/-- State with a non-empty clustering bucket whose delegate needs-filtering
flag is set. -/
def stCkNeedsFiltering : StatementRestrictions :=
  { schema := exSchema
    partition_key_restrictions := [eqAtomA]
    new_clustering_columns_restrictions := [sliceAtomB, eqAtomC]
    clustering_columns_needs_filtering := true
    new_nonprimary_key_restrictions := []
    not_null_columns := []
    uses_secondary_indexing := false
    is_key_range := false }

/-- State whose only restriction on the regular column `d` is an
is-not-null requirement. -/
def stNotNullOnly : StatementRestrictions :=
  { schema := exSchema
    partition_key_restrictions := [eqAtomA]
    new_clustering_columns_restrictions := []
    clustering_columns_needs_filtering := false
    new_nonprimary_key_restrictions := []
    not_null_columns := [colD]
    uses_secondary_indexing := false
    is_key_range := false }

/-- Whether the column carries exactly one restriction atom, and that atom
is an equality or set-membership restriction. -/
def pk_col_singly_eq_restricted (e : Expression) (c : ColumnDef) : Bool :=
  match atomsOnColumn e c with
  | [a] => isEqOrIn a.op
  | _ => false

/-- Modelled from the spec: the `_is_key_range` value decided by
`process_partition_key_restrictions` (body not part of the provided
source): false only if every partition column has exactly one equality or
set-membership restriction and no token restriction is present; true
otherwise. -/
def computed_is_key_range (sch : Schema) (pk : Expression) : Bool :=
  !(sch.partitionColumns.all (fun c => pk_col_singly_eq_restricted pk c) && !has_token pk)

/-- Modelled from the spec: the state update performed by
`process_partition_key_restrictions` on the `_is_key_range` field. -/
def process_partition_key_restrictions (s : StatementRestrictions) : StatementRestrictions :=
  { s with is_key_range := computed_is_key_range s.schema s.partition_key_restrictions }

/-- A candidate secondary index: its identity, indexed column, whether it is
locally-co-located, and the operators its queryability predicate accepts. -/
structure SecondaryIndex where
  idxId : Nat
  indexedColumn : ColumnDef
  isLocal : Bool
  supportedOps : List Oper
deriving DecidableEq, Repr

/-- The queryability capability of an index: operator supported or not. -/
def supportsOp (i : SecondaryIndex) (o : Oper) : Bool :=
  i.supportedOps.contains o

/-- True for the containment operators. -/
def isContainsOp (o : Oper) : Bool :=
  match o with
  | .containsOp => true
  | .containsKey => true
  | _ => false

/-- Modelled from the spec: `score` (body not part of the provided source):
a deterministic heuristic over the restrictions that reference the index's
indexed column — equality scores above containment, containment above a
bounded range; ties are broken by how many of the outstanding restrictions
the index serves, then in favor of a local index. The numeric weights are
an implementation detail; only the induced ordering matters. -/
def score (e : Expression) (i : SecondaryIndex) : Int :=
  let atoms := atomsOnColumn e i.indexedColumn
  let primary : Int :=
    if atoms.any (fun a => a.op == Oper.eq) then 3
    else if atoms.any (fun a => isContainsOp a.op) then 2
    else if atoms.any (fun a => isSliceOp a.op) then 1
    else 0
  let coverage : Int := atoms.length
  primary * 1000 + coverage * 10 + (if i.isLocal then 1 else 0)

/-- The first restriction atom on the index's column whose operator the
index's queryability predicate accepts. -/
def justifying_restriction (e : Expression) (i : SecondaryIndex) : Option BinOp :=
  (atomsOnColumn e i.indexedColumn).find? (fun a => supportsOp i a.op)

/-- Whether the index's queryability predicate accepts the operator used
against its indexed column. -/
def index_queriable (e : Expression) (i : SecondaryIndex) : Bool :=
  (atomsOnColumn e i.indexedColumn).any (fun a => supportsOp i a.op)

/-- One step of the maximum-score selection of `find_idx`: a non-queriable
index is skipped; otherwise it replaces the current best exactly when it
scores strictly higher. -/
def find_idx_step (e : Expression) (best : Option (SecondaryIndex × BinOp))
    (i : SecondaryIndex) : Option (SecondaryIndex × BinOp) :=
  match justifying_restriction e i with
  | none => best
  | some a =>
    match best with
    | none => some (i, a)
    | some p => if score e p.1 < score e i then some (i, a) else some p

/-- Modelled from the spec: `find_idx` (body not part of the provided
source): enumerates the indexes whose queryability predicate accepts the
operator used against their indexed column, scores each, and returns the
maximum-scoring index together with the restriction that justified it. -/
def find_idx (e : Expression) (idxs : List SecondaryIndex) :
    Option (SecondaryIndex × BinOp) :=
  idxs.foldl (find_idx_step e) none

/-- An equality atom `d = 7` on the regular column. -/
def eqAtomD : BinOp := { lhs := .single colD, op := .eq, rhs := .term (.lit (.intval 7)) }

/-- A local equality-capable index on the regular column `d`. -/
def idxLocalD : SecondaryIndex :=
  { idxId := 0, indexedColumn := colD, isLocal := true, supportedOps := [.eq] }

/-- Atoms whose left-hand side is a tuple of columns (multi-column atoms). -/
def multiColumnAtoms (e : Expression) : List BinOp :=
  e.filter (fun a => match a.lhs with | .tuple _ => true | _ => false)

/-- True when the list has at most one element. -/
def atMostOne (l : List BinOp) : Bool :=
  match l with
  | [] => true
  | [_] => true
  | _ => false

/-- A well-formed final clustering-prefix element: only equality,
set-membership or bounded-range atoms, with at most one bounded-range atom
per direction. -/
def validLastElemAtoms (atoms : List BinOp) : Bool :=
  atoms.all (fun a => isEqOrIn a.op || isSliceOp a.op)
  && atMostOne (atoms.filter (fun a => isLowerSlice a.op))
  && atMostOne (atoms.filter (fun a => isUpperSlice a.op))

/-- Modelled from the spec: the single-column clustering-prefix extraction
populating `_clustering_prefix_restrictions` (construction code not part of
the provided source): walk the clustering columns in schema order; a column
with only equality/set-membership atoms contributes an element and the walk
continues; a column whose atoms form a well-formed final element closes the
list; a gap or an ill-formed element ends the prefix. -/
def extractSingleColumnElems : List ColumnDef → Expression → List (List BinOp)
  | [], _ => []
  | c :: rest, e =>
    let atoms := atomsOnColumn e c
    if atoms.isEmpty then []
    else if atoms.all (fun a => isEqOrIn a.op) then atoms :: extractSingleColumnElems rest e
    else if validLastElemAtoms atoms then [atoms]
    else []

/-- Modelled from the spec: the multi-column clustering-prefix extraction:
each equality/set-membership tuple atom is its own element; a bounded-range
tuple atom closes the list. -/
def extractMultiElems : List BinOp → List (List BinOp)
  | [] => []
  | a :: rest =>
    if isEqOrIn a.op then [a] :: extractMultiElems rest
    else if isSliceOp a.op then [[a]]
    else []

/-- Modelled from the spec: population of `_clustering_prefix_restrictions`:
multi-column when any tuple atom is present, single-column otherwise. -/
def extractClusteringElems (ckCols : List ColumnDef) (e : Expression) : List (List BinOp) :=
  let multi := multiColumnAtoms e
  if multi.isEmpty then extractSingleColumnElems ckCols e
  else extractMultiElems multi

/-- The element's left-hand column, when the element is a non-empty
single-column conjunction. -/
def elemColumn (elem : List BinOp) : Option ColumnDef :=
  match elem with
  | [] => none
  | a :: _ => match a.lhs with | .single c => some c | _ => none

/-- Single-column shape of a clustering-prefix element list: every element
is a non-empty conjunction of atoms on one column, and the element columns,
in element order, are exactly an initial segment of the clustering-key
column order (gapless, non-repeating). -/
def SingleColumnShape (ckCols : List ColumnDef) (elems : List (List BinOp)) : Prop :=
  (∀ elem ∈ elems, ∃ c, elemColumn elem = some c ∧ elem ≠ [] ∧
    ∀ a ∈ elem, a.lhs = LHS.single c)
  ∧ ∃ k, elems.map elemColumn = (ckCols.take k).map some

/-- Operator shape of a clustering-prefix element list: every element but
the last has only equality or set-membership atoms; the last element may
additionally contain bounded-range atoms, at most one per direction. -/
def ElemOpsShape (elems : List (List BinOp)) : Prop :=
  (∀ elem ∈ elems.dropLast, ∀ a ∈ elem, isEqOrIn a.op = true)
  ∧ (∀ elem, elems.getLast? = some elem → validLastElemAtoms elem = true)

/-- Multi-column shape of a clustering-prefix element list: every element
is a single tuple atom. -/
def MultiColumnShape (elems : List (List BinOp)) : Prop :=
  ∀ elem ∈ elems, ∃ a, elem = [a] ∧ ∃ cs, a.lhs = LHS.tuple cs

/-- The clustering columns that carry at least one single-column atom. -/
def restrictedCkCols (ckCols : List ColumnDef) (e : Expression) : List ColumnDef :=
  ckCols.filter (fun c => !(atomsOnColumn e c).isEmpty)

/-- Modelled from the spec: the clean prefix-plus-trailing-range shape
check for the clustering restrictions: the restricted clustering columns
form a gapless initial segment of the clustering key, all but the last
carry only equality/set-membership atoms, the last forms a well-formed
final element, and single- and multi-column atoms are not mixed. -/
def cpShapeOK (ckCols : List ColumnDef) (e : Expression) : Bool :=
  let rcols := restrictedCkCols ckCols e
  (rcols == ckCols.take rcols.length)
  && rcols.dropLast.all (fun c => (atomsOnColumn e c).all (fun a => isEqOrIn a.op))
  && (match rcols.getLast? with
      | none => true
      | some c => validLastElemAtoms (atomsOnColumn e c))
  && ((multiColumnAtoms e).isEmpty || rcols.isEmpty)

/-- Modelled from the spec: `process_clustering_columns_restrictions` (body
not part of the provided source): a violation of the clean prefix shape is
an invalid request unless filtering is allowed, in which case the query is
marked as needing filtering; the returned boolean is that mark. -/
def process_clustering_columns_restrictions (allow_filtering : Bool)
    (ckCols : List ColumnDef) (e : Expression) : Except Unit Bool :=
  if cpShapeOK ckCols e then .ok false
  else if allow_filtering then .ok true
  else .error ()

/-- A bounded-range atom sits on a restricted clustering column that is not
the last restricted clustering column. -/
def slice_on_non_last (ckCols : List ColumnDef) (e : Expression) : Bool :=
  (restrictedCkCols ckCols e).dropLast.any
    (fun c => (atomsOnColumn e c).any (fun a => isSliceOp a.op))

/-- Modelled from the spec: `pk_restrictions_need_filtering` (body not part
of the provided source): the partition key is restricted by something other
than a clean, schema-order-complete equality/set-membership/token
restriction — a bounded range on a partition column, or a gap with no
compensating index. -/
def pk_restrictions_need_filtering (s : StatementRestrictions)
    (idxs : List SecondaryIndex) : Bool :=
  !is_empty_restriction s.partition_key_restrictions
  && !has_token s.partition_key_restrictions
  && (s.partition_key_restrictions.any (fun a => isSliceOp a.op)
      || (has_partition_key_unrestricted_components s
          && !(idxs.any (fun i => index_queriable s.partition_key_restrictions i))))

/-- The full conjunction of classified restriction atoms, as consulted for
index selection. -/
def all_restriction_atoms (s : StatementRestrictions) : Expression :=
  s.partition_key_restrictions ++ s.new_clustering_columns_restrictions
    ++ s.new_nonprimary_key_restrictions

/-- The index chosen for the statement, with its justifying restriction. -/
def chosen_index (s : StatementRestrictions) (idxs : List SecondaryIndex) :
    Option (SecondaryIndex × BinOp) :=
  find_idx (all_restriction_atoms s) idxs

/-- Modelled from the spec: some other-column (non-primary-key) restriction
is not covered by the chosen index's indexed column. -/
def uncovered_other_column_exists (s : StatementRestrictions)
    (idxs : List SecondaryIndex) : Bool :=
  (get_sorted_column_defs s.new_nonprimary_key_restrictions).any
    (fun c => match chosen_index s idxs with
      | none => true
      | some p => !(c == p.1.indexedColumn))

/-- Modelled from the spec: a queriable index exists but some restricted
column is left unindexed by the chosen index. -/
def queriable_index_leaves_restricted_unindexed (s : StatementRestrictions)
    (idxs : List SecondaryIndex) : Bool :=
  idxs.any (fun i => index_queriable (all_restriction_atoms s) i)
  && (get_sorted_column_defs (all_restriction_atoms s)).any
      (fun c => match chosen_index s idxs with
        | none => true
        | some p => !(c == p.1.indexedColumn))

/-- Modelled from the spec: `need_filtering` (body not part of the provided
source): the logical OR of the partition-key and clustering-key filtering
conditions, of the existence of an other-column restriction not covered by
the chosen index, and of a queriable index leaving some restricted column
unindexed. -/
def need_filtering (s : StatementRestrictions) (idxs : List SecondaryIndex) : Bool :=
  pk_restrictions_need_filtering s idxs
  || ck_restrictions_need_filtering s
  || uncovered_other_column_exists s idxs
  || queriable_index_leaves_restricted_unindexed s idxs

/-- Resolution of a term against the query options: a bound marker fetches
the option value at its position, defaulting to null when absent. -/
def resolveTerm (opts : List Value) : Term → Value
  | .lit v => v
  | .marker i => opts.getD i Value.null

/-- Modelled from the spec: the candidate-value lists contributed by a
column's equality and set-membership atoms once bound markers are resolved. -/
def column_value_lists (opts : List Value) (e : Expression) (c : ColumnDef) :
    List (List Value) :=
  (atomsOnColumn e c).filterMap (fun a =>
    match a.op, a.rhs with
    | .eq, .term t => some [resolveTerm opts t]
    | .inOp, .listOf ts => some (ts.map (resolveTerm opts))
    | _, _ => none)

/-- The per-column candidate-value lists over a column list. -/
def value_lists (opts : List Value) (cols : List ColumnDef) (e : Expression) :
    List (List Value) :=
  cols.flatMap (fun c => column_value_lists opts e c)

/-- Some resolved bound value among the candidate-value lists is null. -/
def null_bound_present (opts : List Value) (cols : List ColumnDef) (e : Expression) : Bool :=
  (value_lists opts cols e).any (fun l => l.contains Value.null)

/-- Modelled from the spec: the enumerated key combinations of the
cross-product of candidate values; a null bound empties the enumeration,
and the cross-product may also be legitimately empty when some
set-membership list has no values. -/
def enumerated_keys (opts : List Value) (cols : List ColumnDef) (e : Expression) :
    List (List Value) :=
  if null_bound_present opts cols e then []
  else (value_lists opts cols e).sections

/-- The enumerated partition keys of the statement. -/
def partition_key_enumerated (s : StatementRestrictions) (opts : List Value) :
    List (List Value) :=
  enumerated_keys opts s.schema.partitionColumns s.partition_key_restrictions

/-- The enumerated clustering prefixes of the statement. -/
def clustering_key_enumerated (s : StatementRestrictions) (opts : List Value) :
    List (List Value) :=
  enumerated_keys opts s.schema.clusteringColumns s.new_clustering_columns_restrictions

/-- Modelled from the spec: `range_or_slice_eq_null` (body not part of the
provided source): true exactly when the partition or clustering range is
empty because some bound resolved to a null value. -/
def range_or_slice_eq_null (s : StatementRestrictions) (opts : List Value) : Bool :=
  null_bound_present opts s.schema.partitionColumns s.partition_key_restrictions
  || null_bound_present opts s.schema.clusteringColumns s.new_clustering_columns_restrictions

/-- A set-membership atom `a IN ()` with an empty value list. -/
def inAtomEmptyA : BinOp := { lhs := .single colA, op := .inOp, rhs := .listOf [] }

/-- State whose partition key is restricted by an empty IN list: the
enumerated partition keys are legitimately empty with no null bound. -/
def stInEmpty : StatementRestrictions :=
  { schema := exSchema
    partition_key_restrictions := [inAtomEmptyA]
    new_clustering_columns_restrictions := []
    clustering_columns_needs_filtering := false
    new_nonprimary_key_restrictions := []
    not_null_columns := []
    uses_secondary_indexing := false
    is_key_range := false }

/-- A bounded-range atom `c > 3`. -/
def sliceAtomC : BinOp := { lhs := .single colC, op := .gt, rhs := .term (.lit (.intval 3)) }

/-- Example clustering atoms: `b = 2 AND c = 5 AND c > 3`. -/
def exCkAtoms : Expression := [eqAtomB, eqAtomC, sliceAtomC]

/-- Example clustering atoms with a bounded range on the non-last restricted
column: `b > 1 AND c = 5`. -/
def exSliceNonLastAtoms : Expression := [sliceAtomB, eqAtomC]

end Scylla

namespace Scylla

/-- C1: for a token-restricted query with resolved start token `S`, end token
`E` and inclusivity flags `(si, ei)`, the computed partition range vector is
empty iff `S` and `E` are both non-minimal and (`S > E`, or `S = E` and not
both bounds inclusive); moreover a minimum-token bound never yields an empty
result. -/
theorem token_range_emptiness (si ei : Bool) (S E : Token) :
    (get_partition_key_ranges_token si ei S E = [] ↔
      S.isMinimum = false ∧ E.isMinimum = false ∧
        (S.cmp E = Ordering.gt ∨ (S.cmp E = Ordering.eq ∧ ¬(si = true ∧ ei = true))))
    ∧ ((S.isMinimum = true ∨ E.isMinimum = true) →
        get_partition_key_ranges_token si ei S E ≠ []) := by
  have hiff : get_partition_key_ranges_token si ei S E = [] ↔
      token_interval_empty si ei S E = true := by
    by_cases hb : token_interval_empty si ei S E = true
    · simp [get_partition_key_ranges_token, get_partition_key_bounds_for_token_restriction, hb]
    · simp [get_partition_key_ranges_token, get_partition_key_bounds_for_token_restriction, hb]
  have hchar : token_interval_empty si ei S E = true ↔
      (S.isMinimum = false ∧ E.isMinimum = false ∧
        (S.cmp E = Ordering.gt ∨ (S.cmp E = Ordering.eq ∧ ¬(si = true ∧ ei = true)))) := by
    cases si <;> cases ei <;>
      cases hc : S.cmp E <;>
      simp [token_interval_empty, Bool.and_eq_true, Bool.or_eq_true, Bool.not_eq_true',
        hc, and_assoc] <;> intros <;> decide
  refine ⟨hiff.trans hchar, ?_⟩
  intro hmin hcontra
  have hc := (hiff.trans hchar).mp hcontra
  rcases hmin with h | h
  · rw [h] at hc
    exact absurd hc.1 (by simp)
  · rw [h] at hc
    exact absurd hc.2.1 (by simp)

/-- C1 witness: a start bound at the minimum token yields a nonempty range
even though the end token is a concrete value. -/
theorem token_range_emptiness_witness :
    get_partition_key_ranges_token true true Token.minimum (Token.tok 5) ≠ [] :=
  (token_range_emptiness true true Token.minimum (Token.tok 5)).2 (Or.inl rfl)

/-- C3 counterexample: a state whose clustering-column bucket is empty while
the partition key has unrestricted components; the claim predicts
`ck_restrictions_need_filtering` is true there, but the code's empty-bucket
early return makes it false. -/
theorem ck_need_filtering_empty_guard_counterexample :
    has_partition_key_unrestricted_components stEmptyCk = true ∧
    ck_restrictions_need_filtering stEmptyCk = false := by
  constructor <;> rfl

/-- C3 (amended): provided the clustering-column restriction bucket is
non-empty, `ck_restrictions_need_filtering` is true exactly when the
clustering restrictions do not form the clean prefix-plus-trailing-range
shape, or the partition key has unrestricted components, or secondary
indexing is combined with a token restriction on the partition key. -/
theorem ck_need_filtering_characterization (s : StatementRestrictions)
    (h : s.new_clustering_columns_restrictions ≠ []) :
    ck_restrictions_need_filtering s = true ↔
      s.clustering_columns_needs_filtering = true
      ∨ has_partition_key_unrestricted_components s = true
      ∨ (s.uses_secondary_indexing = true ∧ has_token s.partition_key_restrictions = true) := by
  have hne : is_empty_restriction s.new_clustering_columns_restrictions = false := by
    simpa [is_empty_restriction, List.isEmpty_iff] using h
  simp only [ck_restrictions_need_filtering, hne, Bool.false_eq_true, if_false,
    Bool.or_eq_true, Bool.and_eq_true]
  tauto

/-- C3 witness: at a state with a non-empty clustering bucket whose
restrictions fail the clean prefix shape, the characterization applies. -/
theorem ck_need_filtering_characterization_witness :
    ck_restrictions_need_filtering stCkNeedsFiltering = true ↔
      stCkNeedsFiltering.clustering_columns_needs_filtering = true
      ∨ has_partition_key_unrestricted_components stCkNeedsFiltering = true
      ∨ (stCkNeedsFiltering.uses_secondary_indexing = true
          ∧ has_token stCkNeedsFiltering.partition_key_restrictions = true) :=
  ck_need_filtering_characterization stCkNeedsFiltering (by decide)

/-- C9: whenever the clustering-column restriction bucket is empty,
`ck_restrictions_need_filtering` returns false, regardless of the other
fields of the state. -/
theorem ck_need_filtering_empty_bucket (s : StatementRestrictions)
    (h : s.new_clustering_columns_restrictions = []) :
    ck_restrictions_need_filtering s = false := by
  simp [ck_restrictions_need_filtering, is_empty_restriction, h]

/-- C9 witness: at a state with an empty clustering bucket, an unrestricted
partition-key component is impossible to observe through
`ck_restrictions_need_filtering`, which is false even with secondary
indexing and a token restriction present. -/
theorem ck_need_filtering_empty_bucket_witness :
    ck_restrictions_need_filtering stEmptyCkIdx = false :=
  ck_need_filtering_empty_bucket stEmptyCkIdx rfl

/-- C10: `is_restricted` is true exactly when the column is in the not-null
set or appears among the columns of the restriction bucket for its kind; in
particular membership in the not-null set alone suffices. -/
theorem is_restricted_characterization (s : StatementRestrictions) (c : ColumnDef) :
    (is_restricted s c = true ↔
      c ∈ s.not_null_columns ∨ c ∈ get_sorted_column_defs (get_restrictions s c.kind))
    ∧ (c ∈ s.not_null_columns → is_restricted s c = true) := by
  constructor
  · by_cases hmem : c ∈ s.not_null_columns
    · simp [is_restricted, List.elem_iff, hmem]
    · simp [is_restricted, List.elem_iff, hmem]
  · intro hmem
    simp [is_restricted, List.elem_iff, hmem]

/-- C10 witness: the regular column `d`, restricted only by an is-not-null
requirement and absent from every ordinary bucket, is reported restricted. -/
theorem is_restricted_characterization_witness :
    is_restricted stNotNullOnly colD = true :=
  (is_restricted_characterization stNotNullOnly colD).2 (by decide)

/-- C4: the `_is_key_range` flag decided by partition-key processing is
false exactly when every partition column carries exactly one equality or
set-membership restriction and no token restriction is present. -/
theorem is_key_range_characterization (s : StatementRestrictions) :
    (process_partition_key_restrictions s).is_key_range = false ↔
      (∀ c ∈ s.schema.partitionColumns,
        pk_col_singly_eq_restricted s.partition_key_restrictions c = true)
      ∧ has_token s.partition_key_restrictions = false := by
  simp [process_partition_key_restrictions, computed_is_key_range,
    Bool.and_eq_true, List.all_eq_true, Bool.not_eq_true']

/-- Fold invariant of `find_idx`: a selected pair scores at least as high
as every queriable candidate seen, and at least as high as the accumulator. -/
theorem find_idx_fold_max (e : Expression) (idxs : List SecondaryIndex) :
    ∀ (acc : Option (SecondaryIndex × BinOp)) (p : SecondaryIndex × BinOp),
      idxs.foldl (find_idx_step e) acc = some p →
      (∀ j ∈ idxs, index_queriable e j = true → score e j ≤ score e p.1)
      ∧ (∀ q, acc = some q → score e q.1 ≤ score e p.1) := by
  induction idxs with
  | nil =>
    intro acc p hfold
    simp only [List.foldl_nil] at hfold
    exact ⟨by simp, fun q hq => by rw [hq] at hfold; cases hfold; exact le_refl _⟩
  | cons i rest ih =>
    intro acc p hfold
    simp only [List.foldl_cons] at hfold
    obtain ⟨hrest, hacc⟩ := ih (find_idx_step e acc i) p hfold
    have hstep : ∀ a, justifying_restriction e i = some a → score e i ≤ score e p.1 := by
      intro a ha
      cases hb : acc with
      | none =>
        have : find_idx_step e acc i = some (i, a) := by
          simp [find_idx_step, ha, hb]
        exact hacc (i, a) this
      | some q =>
        by_cases hlt : score e q.1 < score e i
        · have : find_idx_step e acc i = some (i, a) := by
            simp [find_idx_step, ha, hb, hlt]
          exact hacc (i, a) this
        · have hq : find_idx_step e acc i = some q := by
            simp [find_idx_step, ha, hb, hlt]
          exact le_trans (not_lt.mp hlt) (hacc q hq)
    constructor
    · intro j hj hquer
      rcases List.mem_cons.mp hj with hji | hjr
      · subst hji
        have hsome : (justifying_restriction e j).isSome = true := by
          simp only [justifying_restriction, List.find?_isSome]
          simpa [index_queriable, List.any_eq_true] using hquer
        obtain ⟨a, ha⟩ := Option.isSome_iff_exists.mp hsome
        exact hstep a ha
      · exact hrest j hjr hquer
    · intro q hq
      subst hq
      cases ha : justifying_restriction e i with
      | none =>
        have : find_idx_step e (some q) i = some q := by
          simp [find_idx_step, ha]
        exact hacc q this
      | some a =>
        by_cases hlt : score e q.1 < score e i
        · exact le_trans (le_of_lt hlt) (hstep a ha)
        · have hkeep : find_idx_step e (some q) i = some q := by
            simp [find_idx_step, ha, hlt]
          exact hacc q hkeep

/-- C7: the ordering induced by `score` is total, re-running `find_idx` on
the same input yields the same selected index and justifying restriction,
and any selected pair scores at least as high as every queriable candidate. -/
theorem find_idx_deterministic (e : Expression) (idxs : List SecondaryIndex) :
    (∀ i j : SecondaryIndex, score e i ≤ score e j ∨ score e j ≤ score e i)
    ∧ find_idx e idxs = find_idx e idxs
    ∧ (∀ p, find_idx e idxs = some p →
        ∀ j ∈ idxs, index_queriable e j = true → score e j ≤ score e p.1) := by
  refine ⟨fun i j => le_total _ _, rfl, ?_⟩
  intro p hp j hj hq
  exact (find_idx_fold_max e idxs none p hp).1 j hj hq

/-- C7 witness: with one equality-capable candidate index over `d = 7`,
`find_idx` selects it and the maximality bound instantiates. -/
theorem find_idx_deterministic_witness :
    score [eqAtomD] idxLocalD ≤ score [eqAtomD] idxLocalD :=
  (find_idx_deterministic [eqAtomD] [idxLocalD]).2.2 (idxLocalD, eqAtomD) rfl
    idxLocalD (List.mem_singleton.mpr rfl) (by decide)

/-- C2: `need_filtering` is true exactly when one of its four sources of
filtering holds, and false exactly when none of them does — every restricted
column being covered by a complete key-prefix match or by the chosen index. -/
theorem need_filtering_characterization (s : StatementRestrictions)
    (idxs : List SecondaryIndex) :
    (need_filtering s idxs = true ↔
      pk_restrictions_need_filtering s idxs = true
      ∨ ck_restrictions_need_filtering s = true
      ∨ uncovered_other_column_exists s idxs = true
      ∨ queriable_index_leaves_restricted_unindexed s idxs = true)
    ∧ (need_filtering s idxs = false ↔
      pk_restrictions_need_filtering s idxs = false
      ∧ ck_restrictions_need_filtering s = false
      ∧ uncovered_other_column_exists s idxs = false
      ∧ queriable_index_leaves_restricted_unindexed s idxs = false) := by
  unfold need_filtering
  constructor
  · simp [Bool.or_eq_true, or_assoc]
  · simp [Bool.or_eq_false_iff, and_assoc]

/-- A bounded-range operator is never an equality or set-membership operator. -/
theorem slice_not_eq_or_in (o : Oper) (h : isSliceOp o = true) : isEqOrIn o = false := by
  cases o <;> first | rfl | simp [isSliceOp] at h

/-- C6: whenever a bounded-range atom sits on a restricted clustering column
that is not the last restricted one, classification fails as an invalid
request without the filtering-allowed flag, and succeeds marked as needing
filtering with it. -/
theorem slice_on_non_last_fails (ckCols : List ColumnDef) (e : Expression)
    (h : slice_on_non_last ckCols e = true) :
    process_clustering_columns_restrictions false ckCols e = .error ()
    ∧ process_clustering_columns_restrictions true ckCols e = .ok true := by
  obtain ⟨c, hc, ha⟩ := List.any_eq_true.mp h
  obtain ⟨a, hamem, hslice⟩ := List.any_eq_true.mp ha
  have hB : (restrictedCkCols ckCols e).dropLast.all
      (fun c => (atomsOnColumn e c).all (fun a => isEqOrIn a.op)) = false := by
    rw [Bool.eq_false_iff]
    intro hall
    have h1 := List.all_eq_true.mp hall c hc
    have h2 := List.all_eq_true.mp h1 a hamem
    rw [slice_not_eq_or_in a.op hslice] at h2
    exact Bool.false_ne_true h2
  have hshape : cpShapeOK ckCols e = false := by
    simp [cpShapeOK, hB]
  constructor <;> simp [process_clustering_columns_restrictions, hshape]

/-- C6 witness: `b > 1 AND c = 5` on clustering key `(b, c)` is rejected
without the filtering-allowed flag and downgraded to needing filtering with it. -/
theorem slice_on_non_last_fails_witness :
    process_clustering_columns_restrictions false [colB, colC] exSliceNonLastAtoms = .error ()
    ∧ process_clustering_columns_restrictions true [colB, colC] exSliceNonLastAtoms = .ok true :=
  slice_on_non_last_fails [colB, colC] exSliceNonLastAtoms (by decide)

/-- C8: `range_or_slice_eq_null` is true exactly when the enumerated
partition or clustering keys are empty because some bound resolved to null,
and it is false whenever no bound resolved to null, even if an enumeration
is legitimately empty. -/
theorem range_or_slice_eq_null_characterization (s : StatementRestrictions)
    (opts : List Value) :
    (range_or_slice_eq_null s opts = true ↔
      ((partition_key_enumerated s opts = []
          ∧ null_bound_present opts s.schema.partitionColumns
              s.partition_key_restrictions = true)
        ∨ (clustering_key_enumerated s opts = []
          ∧ null_bound_present opts s.schema.clusteringColumns
              s.new_clustering_columns_restrictions = true)))
    ∧ ((null_bound_present opts s.schema.partitionColumns
          s.partition_key_restrictions = false
        ∧ null_bound_present opts s.schema.clusteringColumns
            s.new_clustering_columns_restrictions = false)
      → range_or_slice_eq_null s opts = false) := by
  constructor
  · by_cases hpk : null_bound_present opts s.schema.partitionColumns
        s.partition_key_restrictions = true
    · simp [range_or_slice_eq_null, partition_key_enumerated, enumerated_keys, hpk]
    · by_cases hck : null_bound_present opts s.schema.clusteringColumns
          s.new_clustering_columns_restrictions = true
      · simp [range_or_slice_eq_null, clustering_key_enumerated, enumerated_keys, hpk, hck]
      · simp [range_or_slice_eq_null, hpk, hck]
  · rintro ⟨h1, h2⟩
    simp [range_or_slice_eq_null, h1, h2]

/-- C8 witness: `a IN ()` empties the enumerated partition keys with no null
bound anywhere, and `range_or_slice_eq_null` correctly stays false. -/
theorem range_or_slice_eq_null_characterization_witness :
    range_or_slice_eq_null stInEmpty [] = false :=
  (range_or_slice_eq_null_characterization stInEmpty []).2 ⟨rfl, rfl⟩

/-- Every atom selected for a column has that column as its left-hand side. -/
theorem mem_atomsOnColumn (e : Expression) (c : ColumnDef) (a : BinOp)
    (h : a ∈ atomsOnColumn e c) : a.lhs = LHS.single c := by
  have := List.of_mem_filter h
  simpa using this

/-- A non-empty per-column atom list has the column as its element column. -/
theorem elemColumn_atomsOnColumn (e : Expression) (c : ColumnDef)
    (h : (atomsOnColumn e c).isEmpty = false) :
    elemColumn (atomsOnColumn e c) = some c := by
  cases hl : atomsOnColumn e c with
  | nil => rw [hl] at h; simp at h
  | cons a t =>
    have ha : a ∈ atomsOnColumn e c := by rw [hl]; exact List.mem_cons_self a t
    have hlhs := mem_atomsOnColumn e c a ha
    simp [elemColumn, hlhs]

/-- An equality or set-membership operator is not a lower-bound operator. -/
theorem eq_or_in_not_lower (o : Oper) (h : isEqOrIn o = true) : isLowerSlice o = false := by
  cases o <;> first | rfl | simp [isEqOrIn] at h

/-- An equality or set-membership operator is not an upper-bound operator. -/
theorem eq_or_in_not_upper (o : Oper) (h : isEqOrIn o = true) : isUpperSlice o = false := by
  cases o <;> first | rfl | simp [isEqOrIn] at h

/-- An all-equality/set-membership element is a well-formed final element. -/
theorem validLast_of_all_eq_or_in (atoms : List BinOp)
    (h : (atoms.all fun a => isEqOrIn a.op) = true) :
    validLastElemAtoms atoms = true := by
  have h1 : (atoms.all fun a => isEqOrIn a.op || isSliceOp a.op) = true := by
    rw [List.all_eq_true] at h ⊢
    intro a ha
    simp [h a ha]
  have h2 : (atoms.filter fun a => isLowerSlice a.op) = [] := by
    rw [List.filter_eq_nil_iff]
    intro a ha
    rw [eq_or_in_not_lower a.op (List.all_eq_true.mp h a ha)]
    exact Bool.false_ne_true
  have h3 : (atoms.filter fun a => isUpperSlice a.op) = [] := by
    rw [List.filter_eq_nil_iff]
    intro a ha
    rw [eq_or_in_not_upper a.op (List.all_eq_true.mp h a ha)]
    exact Bool.false_ne_true
  simp [validLastElemAtoms, h1, h2, h3, atMostOne]

/-- A singleton element with an equality, set-membership or bounded-range
atom is a well-formed final element. -/
theorem validLast_singleton (a : BinOp) (h : (isEqOrIn a.op || isSliceOp a.op) = true) :
    validLastElemAtoms [a] = true := by
  by_cases hl : isLowerSlice a.op = true <;> by_cases hu : isUpperSlice a.op = true <;>
    simp [validLastElemAtoms, h, hl, hu, atMostOne]

/-- The element columns of the single-column extraction are exactly an
initial segment of the clustering-key column order. -/
theorem extractSingle_map_elemColumn (ckCols : List ColumnDef) (e : Expression) :
    ∃ k, (extractSingleColumnElems ckCols e).map elemColumn = (ckCols.take k).map some := by
  induction ckCols with
  | nil => exact ⟨0, rfl⟩
  | cons c rest ih =>
    by_cases hemp : (atomsOnColumn e c).isEmpty = true
    · exact ⟨0, by simp [extractSingleColumnElems, hemp]⟩
    · have hne : (atomsOnColumn e c).isEmpty = false := Bool.eq_false_iff.mpr hemp
      by_cases hall : ((atomsOnColumn e c).all fun a => isEqOrIn a.op) = true
      · obtain ⟨k, hk⟩ := ih
        refine ⟨k + 1, ?_⟩
        have hrw : extractSingleColumnElems (c :: rest) e
            = atomsOnColumn e c :: extractSingleColumnElems rest e := by
          simp [extractSingleColumnElems, hemp, hall]
        rw [hrw]
        simp [List.take_succ_cons, elemColumn_atomsOnColumn e c hne, hk]
      · by_cases hlast : validLastElemAtoms (atomsOnColumn e c) = true
        · refine ⟨1, ?_⟩
          have hrw : extractSingleColumnElems (c :: rest) e = [atomsOnColumn e c] := by
            simp [extractSingleColumnElems, hemp, hall, hlast]
          rw [hrw]
          simp [elemColumn_atomsOnColumn e c hne]
        · exact ⟨0, by simp [extractSingleColumnElems, hemp, hall, hlast]⟩

/-- Every element of the single-column extraction is a non-empty conjunction
of atoms on a single column. -/
theorem extractSingle_elem_shape (ckCols : List ColumnDef) (e : Expression) :
    ∀ elem ∈ extractSingleColumnElems ckCols e, ∃ c, elemColumn elem = some c ∧ elem ≠ [] ∧
      ∀ a ∈ elem, a.lhs = LHS.single c := by
  induction ckCols with
  | nil => intro elem h; simp [extractSingleColumnElems] at h
  | cons c rest ih =>
    intro elem h
    by_cases hemp : (atomsOnColumn e c).isEmpty = true
    · rw [show extractSingleColumnElems (c :: rest) e = [] from by
        simp [extractSingleColumnElems, hemp]] at h
      simp at h
    · have hne : (atomsOnColumn e c).isEmpty = false := Bool.eq_false_iff.mpr hemp
      have hmem : elem = atomsOnColumn e c → ∃ c', elemColumn elem = some c' ∧ elem ≠ [] ∧
          ∀ a ∈ elem, a.lhs = LHS.single c' := by
        intro h1
        subst h1
        refine ⟨c, elemColumn_atomsOnColumn e c hne, ?_, fun a ha => mem_atomsOnColumn e c a ha⟩
        intro hnil
        rw [hnil] at hne
        simp at hne
      by_cases hall : ((atomsOnColumn e c).all fun a => isEqOrIn a.op) = true
      · rw [show extractSingleColumnElems (c :: rest) e
            = atomsOnColumn e c :: extractSingleColumnElems rest e from by
          simp [extractSingleColumnElems, hemp, hall]] at h
        rcases List.mem_cons.mp h with h1 | h2
        · exact hmem h1
        · exact ih elem h2
      · by_cases hlast : validLastElemAtoms (atomsOnColumn e c) = true
        · rw [show extractSingleColumnElems (c :: rest) e = [atomsOnColumn e c] from by
            simp [extractSingleColumnElems, hemp, hall, hlast]] at h
          exact hmem (List.mem_singleton.mp h)
        · rw [show extractSingleColumnElems (c :: rest) e = [] from by
            simp [extractSingleColumnElems, hemp, hall, hlast]] at h
          simp at h

/-- Operator shape of the single-column extraction: all elements but the
last carry only equality/set-membership atoms, and the last element is a
well-formed final element. -/
theorem extractSingle_ops_shape (ckCols : List ColumnDef) (e : Expression) :
    (∀ elem ∈ (extractSingleColumnElems ckCols e).dropLast, ∀ a ∈ elem, isEqOrIn a.op = true)
    ∧ (∀ elem, (extractSingleColumnElems ckCols e).getLast? = some elem →
        validLastElemAtoms elem = true) := by
  induction ckCols with
  | nil =>
    constructor
    · intro elem h
      simp [extractSingleColumnElems] at h
    · intro elem h
      simp [extractSingleColumnElems] at h
  | cons c rest ih =>
    by_cases hemp : (atomsOnColumn e c).isEmpty = true
    · rw [show extractSingleColumnElems (c :: rest) e = [] from by
        simp [extractSingleColumnElems, hemp]]
      exact ⟨fun elem h => by simp at h, fun elem h => by simp at h⟩
    · by_cases hall : ((atomsOnColumn e c).all fun a => isEqOrIn a.op) = true
      · rw [show extractSingleColumnElems (c :: rest) e
            = atomsOnColumn e c :: extractSingleColumnElems rest e from by
          simp [extractSingleColumnElems, hemp, hall]]
        cases htail : extractSingleColumnElems rest e with
        | nil =>
          constructor
          · intro elem h
            simp at h
          · intro elem h
            rw [List.getLast?_singleton] at h
            cases h
            exact validLast_of_all_eq_or_in _ hall
        | cons x xs =>
          rw [htail] at ih
          constructor
          · intro elem h
            rw [List.dropLast_cons₂] at h
            rcases List.mem_cons.mp h with h1 | h2
            · subst h1
              exact fun a ha => List.all_eq_true.mp hall a ha
            · exact ih.1 elem h2
          · intro elem h
            rw [List.getLast?_cons_cons] at h
            exact ih.2 elem h
      · by_cases hlast : validLastElemAtoms (atomsOnColumn e c) = true
        · rw [show extractSingleColumnElems (c :: rest) e = [atomsOnColumn e c] from by
            simp [extractSingleColumnElems, hemp, hall, hlast]]
          constructor
          · intro elem h
            simp at h
          · intro elem h
            rw [List.getLast?_singleton] at h
            cases h
            exact hlast
        · rw [show extractSingleColumnElems (c :: rest) e = [] from by
            simp [extractSingleColumnElems, hemp, hall, hlast]]
          exact ⟨fun elem h => by simp at h, fun elem h => by simp at h⟩

/-- Every element of the multi-column extraction is a single tuple atom,
provided the input atoms are tuple atoms. -/
theorem extractMulti_elem_shape (l : List BinOp)
    (hl : ∀ a ∈ l, ∃ cs, a.lhs = LHS.tuple cs) :
    MultiColumnShape (extractMultiElems l) := by
  induction l with
  | nil => intro elem h; simp [extractMultiElems] at h
  | cons a rest ih =>
    intro elem h
    by_cases he : isEqOrIn a.op = true
    · rw [show extractMultiElems (a :: rest) = [a] :: extractMultiElems rest from by
        simp [extractMultiElems, he]] at h
      rcases List.mem_cons.mp h with h1 | h2
      · exact ⟨a, h1, hl a (List.mem_cons_self a rest)⟩
      · exact ih (fun b hb => hl b (List.mem_cons_of_mem a hb)) elem h2
    · by_cases hs : isSliceOp a.op = true
      · rw [show extractMultiElems (a :: rest) = [[a]] from by
          simp [extractMultiElems, he, hs]] at h
        exact ⟨a, List.mem_singleton.mp h, hl a (List.mem_cons_self a rest)⟩
      · rw [show extractMultiElems (a :: rest) = [] from by
          simp [extractMultiElems, he, hs]] at h
        simp at h

/-- Operator shape of the multi-column extraction. -/
theorem extractMulti_ops_shape (l : List BinOp) :
    (∀ elem ∈ (extractMultiElems l).dropLast, ∀ a ∈ elem, isEqOrIn a.op = true)
    ∧ (∀ elem, (extractMultiElems l).getLast? = some elem →
        validLastElemAtoms elem = true) := by
  induction l with
  | nil =>
    constructor
    · intro elem h
      simp [extractMultiElems] at h
    · intro elem h
      simp [extractMultiElems] at h
  | cons a rest ih =>
    by_cases he : isEqOrIn a.op = true
    · rw [show extractMultiElems (a :: rest) = [a] :: extractMultiElems rest from by
        simp [extractMultiElems, he]]
      cases htail : extractMultiElems rest with
      | nil =>
        constructor
        · intro elem h
          simp at h
        · intro elem h
          rw [List.getLast?_singleton] at h
          cases h
          exact validLast_of_all_eq_or_in [a] (by simp [he])
      | cons x xs =>
        rw [htail] at ih
        constructor
        · intro elem h
          rw [List.dropLast_cons₂] at h
          rcases List.mem_cons.mp h with h1 | h2
          · subst h1
            intro b hb
            rw [List.mem_singleton.mp hb]
            exact he
          · exact ih.1 elem h2
        · intro elem h
          rw [List.getLast?_cons_cons] at h
          exact ih.2 elem h
    · by_cases hs : isSliceOp a.op = true
      · rw [show extractMultiElems (a :: rest) = [[a]] from by
          simp [extractMultiElems, he, hs]]
        constructor
        · intro elem h
          simp at h
        · intro elem h
          rw [List.getLast?_singleton] at h
          cases h
          exact validLast_singleton a (by simp [hs])
      · rw [show extractMultiElems (a :: rest) = [] from by
          simp [extractMultiElems, he, hs]]
        exact ⟨fun elem h => by simp at h, fun elem h => by simp at h⟩

/-- C5: the clustering-prefix element list produced by classification is
uniformly single- or multi-column; in the single-column case the element
columns form a gapless, non-repeating initial segment of the clustering-key
order; all elements but the last carry only equality/set-membership atoms;
and only the last element may carry bounded-range atoms, at most one per
direction. -/
theorem clustering_elems_invariant (ckCols : List ColumnDef) (e : Expression)
    (hnd : ckCols.Nodup) :
    ((SingleColumnShape ckCols (extractClusteringElems ckCols e)
        ∧ ((extractClusteringElems ckCols e).map elemColumn).Nodup)
      ∨ MultiColumnShape (extractClusteringElems ckCols e))
    ∧ (∀ elem ∈ (extractClusteringElems ckCols e).dropLast, ∀ a ∈ elem, isEqOrIn a.op = true)
    ∧ (∀ elem, (extractClusteringElems ckCols e).getLast? = some elem →
        validLastElemAtoms elem = true) := by
  by_cases hm : (multiColumnAtoms e).isEmpty = true
  · have hrw : extractClusteringElems ckCols e = extractSingleColumnElems ckCols e := by
      simp [extractClusteringElems, hm]
    rw [hrw]
    refine ⟨Or.inl ⟨⟨extractSingle_elem_shape ckCols e, extractSingle_map_elemColumn ckCols e⟩, ?_⟩,
      (extractSingle_ops_shape ckCols e).1, (extractSingle_ops_shape ckCols e).2⟩
    obtain ⟨k, hk⟩ := extractSingle_map_elemColumn ckCols e
    rw [hk]
    exact List.Nodup.map (Option.some_injective _)
      (List.Nodup.sublist (List.take_sublist k ckCols) hnd)
  · have hrw : extractClusteringElems ckCols e = extractMultiElems (multiColumnAtoms e) := by
      simp [extractClusteringElems, hm]
    rw [hrw]
    refine ⟨Or.inr (extractMulti_elem_shape _ ?_),
      (extractMulti_ops_shape _).1, (extractMulti_ops_shape _).2⟩
    intro a ha
    have hf := List.of_mem_filter ha
    cases hl : a.lhs with
    | single c => rw [hl] at hf; simp at hf
    | tuple cs => exact ⟨cs, rfl⟩
    | tokenOf cs => rw [hl] at hf; simp at hf

/-- C5 witness: the invariant holds for `b = 2 AND c = 5 AND c > 3` over
clustering key `(b, c)`. -/
theorem clustering_elems_invariant_witness :
    ((SingleColumnShape [colB, colC] (extractClusteringElems [colB, colC] exCkAtoms)
        ∧ ((extractClusteringElems [colB, colC] exCkAtoms).map elemColumn).Nodup)
      ∨ MultiColumnShape (extractClusteringElems [colB, colC] exCkAtoms))
    ∧ (∀ elem ∈ (extractClusteringElems [colB, colC] exCkAtoms).dropLast,
        ∀ a ∈ elem, isEqOrIn a.op = true)
    ∧ (∀ elem, (extractClusteringElems [colB, colC] exCkAtoms).getLast? = some elem →
        validLastElemAtoms elem = true) :=
  clustering_elems_invariant [colB, colC] exCkAtoms (by decide)

end Scylla
